import Mathlib

/-!
# Verification of the minecraft-protocol wire codec

A shallow embedding, in Lean 4, of the codec core of the
`minecraft-protocol` repository: the primitive encoders/decoders of
`protocol/src/encoder.rs` and `protocol/src/decoder.rs`, the packet framing
layer of `protocol/src/packet.rs`, and the bitfield member extraction
generated by `protocol-derive/src/lib.rs`.

Conventions of the embedding:

* Byte streams are `List Nat`; every byte produced by an embedded encoder is
  `< 256`.  A `Read`er is the suffix of the stream that has not been consumed,
  so a decoder has type `List Nat → Except DecodeError (α × List Nat)`.
* Rust machine integers are modelled as `Nat`/`Int` with explicit
  twos-complement wrapping (`% 2^w` plus a signed reinterpretation) exactly
  where the source can overflow or cast.  On in-range values, the Rust
  arithmetic right shift `>> k` of a signed integer equals floor division by
  `2^k`, which for the positive divisor `2^k` is the Lean `Int` division `/`;
  masking with a low-ones mask `& (2^w - 1)` equals `% 2^w` (the Lean `Int`
  `%` is the Euclidean remainder, i.e. the twos-complement bit pattern).
* Loops whose termination depends on the data are given explicit fuel, one
  unit per source-loop iteration; `none` at every fuel means the source loop
  never terminates.
* External collaborators (zlib inflation, UTF-8 validation of the `std` function
  `String::from_utf8`) are parameters of the functions that call them.
-/

namespace MCProto

/-- Errors while encoding a packet, from `protocol/src/error.rs`
(`EncodeError`).  Payloads carried by external error types are dropped. -/
inductive EncodeError : Type where
  | stringTooLong (length : Nat) (maxLength : Nat)
  | ioError
  | jsonError
deriving DecidableEq, Repr

/-- Errors while decoding a packet, from `protocol/src/error.rs`
(`DecodeError`).  The variants `incomplete` and `decompressionError` are
Modelled from the spec: the `DecodeError` enum text present under `src/`
predates `protocol/src/packet.rs`, which constructs
`DecodeError::Incomplete { bytes_needed }` and
`DecodeError::DecompressionError`; the spec lists both in the closed set of
decode error kinds (§7), so they are included here.  Payloads carried by
external error types (io, json, utf8, uuid, nbt) are dropped. -/
inductive DecodeError : Type where
  | unknownPacketType (typeId : Nat)
  | stringTooLong (length : Nat) (maxLength : Nat)
  | ioError
  | jsonError
  | utf8Error
  | nonBoolValue
  | uuidParseError
  | unknownEnumType (typeId : Nat)
  | tagDecodeError
  | varIntTooLong (maxBytes : Nat)
  | incomplete (bytesNeeded : Nat)
  | decompressionError
deriving DecidableEq, Repr

/-- Reinterpret the `w`-bit pattern `n` (with `n < 2^w`) as a signed
twos-complement value. -/
def toSigned (w : Nat) (n : Nat) : Int :=
  if n < 2 ^ (w - 1) then (n : Int) else (n : Int) - 2 ^ w

/-- The `w`-bit twos-complement pattern of the integer `v` (the effect of a
wrapping cast to a `w`-bit machine integer, reading the result unsigned). -/
def wrap (w : Nat) (v : Int) : Nat :=
  (v % ((2 : Int) ^ w)).toNat

/-- The Rust cast `as usize` on a 64-bit platform applied to a signed value:
the 64-bit pattern, read unsigned. -/
def usize64 (v : Int) : Nat := wrap 64 v

/-- The result type of an embedded decoder: the value together with the
unconsumed suffix of the stream. -/
abbrev DecodeResult (α : Type) := Except DecodeError (α × List Nat)

/-- Embeds `read_u8` of `byteorder`: one byte from the stream, `IOError`
(unexpected end of file) when it is empty. -/
def read_u8 : List Nat → DecodeResult Nat
  | [] => .error .ioError
  | b :: rest => .ok (b, rest)

/-- Embeds `std::io::Read::read_exact` into a buffer of length `n`: `IOError` when
fewer than `n` bytes remain. -/
def read_exact (n : Nat) (s : List Nat) : DecodeResult (List Nat) :=
  if n ≤ s.length then .ok (s.take n, s.drop n) else .error .ioError

/-- Embeds `std::io::Read::read_to_end`: all remaining bytes. -/
def read_to_end (s : List Nat) : DecodeResult (List Nat) := .ok (s, [])

/-- The loop of `write_signed_var_int!` (`encoder.rs`): per iteration,
`byte := value & 0b0111_1111`, then `value := value >> 7` (arithmetic
shift, i.e. floor division by 128), the continuation bit `0b1000_0000` is
set on `byte` iff the new value is nonzero, `byte` is written, and the loop
stops iff the new value is zero.  `none` means the loop did not finish
within `fuel` iterations. -/
def write_var_loop : Nat → Int → Option (List Nat)
  | 0, _ => none
  | fuel + 1, value =>
    let byte := (value % 128).toNat
    let next := value / 128
    if next = 0 then
      some [byte]
    else
      match write_var_loop fuel next with
      | some rest => some ((byte + 128) :: rest)
      | none => none

/-- Divergence of `write_var_i32(v)` (equally `write_var_i64(v)`): no number
of loop iterations completes it.  (`write_var_loop fuel v` models exactly
`fuel` iterations of the source loop.) -/
def write_var_diverges (v : Int) : Prop :=
  ∀ fuel : Nat, write_var_loop fuel v = none

/-- The byte list the source loop emits for a nonnegative value, by
structural recursion (fuel `v` always suffices, since the value shrinks by a
factor of 128 per step).  This is the reference form the fuelled loop is
proved to compute. -/
def write_var_go : Nat → Nat → List Nat
  | 0, v => [v % 128]
  | fuel + 1, v => if v < 128 then [v] else (v % 128 + 128) :: write_var_go fuel (v / 128)

/-- The varint byte string of a nonnegative value. -/
def write_var_nat (v : Nat) : List Nat := write_var_go v v

/-- The loop of `read_signed_var_int!` (`decoder.rs`), instantiated by the
source at `(i32, max_bytes = 5, width = 32)` and `(i64, 10, 64)`.  Per
iteration: read one byte, `value := byte & 0b0111_1111`,
`output |= value << 7 * bytes` (a `width`-bit wrapping shift: the shift
amount is reduced mod `width` as in release mode, the shifted-out high bits
are discarded), `bytes += 1`; fail with `VarIntTooLong` when `bytes`
exceeds `max_bytes`, and stop when the continuation bit `0b1000_0000` is
clear.  The accumulator is the `width`-bit pattern of the `output`
machine integer. -/
def read_var_loop (maxBytes width : Nat) : List Nat → Nat → Nat → DecodeResult Nat
  | [], _, _ => .error .ioError
  | b :: rest, bytes, output =>
    if maxBytes < bytes + 1 then .error (.varIntTooLong maxBytes)
    else if b &&& 128 = 0 then
      .ok (output ||| (b &&& 127) <<< (7 * bytes % width) % 2 ^ width, rest)
    else read_var_loop maxBytes width rest (bytes + 1)
      (output ||| (b &&& 127) <<< (7 * bytes % width) % 2 ^ width)

/-- Embeds `read_var_i32` / `read_var_i64` (`decoder.rs`): run the loop with a zero
accumulator and read the final `width`-bit pattern as a signed value. -/
def read_var (maxBytes width : Nat) (s : List Nat) : Except DecodeError (Int × List Nat) :=
  match read_var_loop maxBytes width s 0 0 with
  | .error e => .error e
  | .ok (out, rest) => .ok (toSigned width (out % 2 ^ width), rest)

/-- Embeds `read_var_i32` (`decoder.rs`): at most 5 bytes into an `i32`. -/
def read_var_i32 (s : List Nat) : Except DecodeError (Int × List Nat) := read_var 5 32 s

/-- Embeds `read_var_i64` (`decoder.rs`): at most 10 bytes into an `i64`. -/
def read_var_i64 (s : List Nat) : Except DecodeError (Int × List Nat) := read_var 10 64 s

/-- Embeds `write_bool` (`encoder.rs`): `1` for true, `0` for false. -/
def write_bool (b : Bool) : List Nat := if b then [1] else [0]

/-- Embeds `read_bool` (`decoder.rs`): `0` is false, `1` is true, anything else is
`NonBoolValue`. -/
def read_bool (s : List Nat) : DecodeResult Bool :=
  match read_u8 s with
  | .error e => .error e
  | .ok (0, rest) => .ok (false, rest)
  | .ok (1, rest) => .ok (true, rest)
  | .ok (_, _) => .error .nonBoolValue

/-- Big-endian byte string of the low `k` bytes of `n`
(the `byteorder` functions `write_uNN::<BigEndian>` / `write_iNN` on the `8*k`-bit
pattern `n`). -/
def be_bytes : Nat → Nat → List Nat
  | 0, _ => []
  | k + 1, n => (n / 2 ^ (8 * k)) % 256 :: be_bytes k n

/-- Big-endian read of `k` bytes into an accumulator
(the `byteorder` functions `read_uNN::<BigEndian>` / `read_iNN`). -/
def read_be : Nat → Nat → List Nat → DecodeResult Nat
  | 0, acc, s => .ok (acc, s)
  | k + 1, acc, s =>
    match read_u8 s with
    | .error e => .error e
    | .ok (b, rest) => read_be k (acc * 256 + b) rest

/-- Embeds `impl Encoder for u8/u16/u32/u64` (`encoder.rs`): `k`-byte big-endian
word of an unsigned value. -/
def write_uint_be (k : Nat) (n : Nat) : List Nat := be_bytes k n

/-- Embeds `impl Decoder for u8/u16/u32/u64` (`decoder.rs`). -/
def read_uint_be (k : Nat) (s : List Nat) : DecodeResult Nat := read_be k 0 s

/-- Embeds `impl Encoder for i16/i32/i64` (`encoder.rs`): `k`-byte big-endian word
of the twos-complement pattern of a signed value. -/
def write_int_be (k : Nat) (v : Int) : List Nat := be_bytes k (wrap (8 * k) v)

/-- Embeds `impl Decoder for i16/i32/i64` (`decoder.rs`): read the `k`-byte
big-endian pattern, reinterpret signed. -/
def read_int_be (k : Nat) (s : List Nat) : Except DecodeError (Int × List Nat) :=
  match read_be k 0 s with
  | .error e => .error e
  | .ok (n, rest) => .ok (toSigned (8 * k) n, rest)

/-- Embeds `write_string` (`encoder.rs`): fail with `StringTooLong` when the byte
length exceeds `max_length`, else varint length prefix followed by the
UTF-8 bytes.  The string value is represented by its UTF-8 byte list; the
length prefix is `value.len() as i32`.  Fuelled through the varint loop. -/
def write_string (fuel : Nat) (s : List Nat) (maxLength : Nat) :
    Option (Except EncodeError (List Nat)) :=
  if maxLength < s.length then some (.error (.stringTooLong s.length maxLength))
  else
    match write_var_loop fuel (toSigned 32 (s.length % 2 ^ 32)) with
    | none => none
    | some pre => some (.ok (pre ++ s))

/-- Embeds `read_string` (`decoder.rs`): read the varint prefix, take it
`as usize`, compare `length as u16 > max_length` (the source truncates the
declared length to 16 bits before the bound check), then `read_exact` and
validate UTF-8.  `utf8` stands for the validity test of `String::from_utf8`, an
external collaborator. -/
def read_string (maxLength : Nat) (utf8 : List Nat → Bool) (s : List Nat) :
    DecodeResult (List Nat) :=
  match read_var_i32 s with
  | .error e => .error e
  | .ok (li, s1) =>
    if maxLength < usize64 li % 2 ^ 16 then
      .error (.stringTooLong (usize64 li) maxLength)
    else
      match read_exact (usize64 li) s1 with
      | .error e => .error e
      | .ok (buf, s2) => if utf8 buf then .ok (buf, s2) else .error .utf8Error

/-- Embeds `impl Encoder for String` (`encoder.rs`): `write_string` with the fixed
maximum length 32768. -/
def string_encode_default (fuel : Nat) (s : List Nat) : Option (Except EncodeError (List Nat)) :=
  write_string fuel s 32768

/-- Embeds `impl Decoder for String` (`decoder.rs`): `read_string` with the fixed
maximum length 32768. -/
def string_decode_default (utf8 : List Nat → Bool) (s : List Nat) : DecodeResult (List Nat) :=
  read_string 32768 utf8 s

/-- Embeds `write_byte_array` (`encoder.rs`): varint prefix `value.len() as i32`
followed by the raw bytes. -/
def write_byte_array (fuel : Nat) (d : List Nat) : Option (List Nat) :=
  match write_var_loop fuel (toSigned 32 (d.length % 2 ^ 32)) with
  | none => none
  | some pre => some (pre ++ d)

/-- Embeds `read_byte_array` (`decoder.rs`): varint prefix `as usize`, then
`read_exact` that many bytes (no maximum-length check). -/
def read_byte_array (s : List Nat) : DecodeResult (List Nat) :=
  match read_var_i32 s with
  | .error e => .error e
  | .ok (li, s1) => read_exact (usize64 li) s1

/-- Embeds `impl Encoder for Uuid` (`encoder.rs`): the 16 raw bytes. -/
def write_uuid (u : List Nat) : List Nat := u

/-- Embeds `impl Decoder for Uuid` (`decoder.rs`): `read_exact` 16 bytes. -/
def read_uuid (s : List Nat) : DecodeResult (List Nat) := read_exact 16 s

/-- Embeds `read_enum` (`decoder.rs`): read one byte, map it through the
`FromPrimitive::from_u8` map of the enum (the parameter `fromU8`); an unmatched byte is
`UnknownEnumType` carrying that byte. -/
def read_enum {α : Type} (fromU8 : Nat → Option α) (s : List Nat) : DecodeResult α :=
  match read_u8 s with
  | .error e => .error e
  | .ok (b, rest) =>
    match fromU8 b with
    | some t => .ok (t, rest)
    | none => .error (.unknownEnumType b)

/-- Embeds `read_n` (`packet.rs`): `take(len).read_to_end`, which reads
`min(len, available)` bytes; a shortfall is the `Incomplete` error with
`bytes_needed = len - bytes_read`, not an I/O error. -/
def read_n (s : List Nat) (len : Nat) : DecodeResult (List Nat) :=
  if min len s.length ≠ len then .error (.incomplete (len - min len s.length))
  else .ok (s.take len, s.drop len)

/-- Embeds `RawPacket` (`packet.rs`): a varint id and opaque payload bytes. -/
structure RawPacket where
  id : Int
  data : List Nat
deriving DecidableEq, Repr

/-- Embeds `impl Encoder for RawPacket`: varint id, then the payload verbatim. -/
def raw_packet_encode (fuel : Nat) (p : RawPacket) : Option (List Nat) :=
  match write_var_loop fuel p.id with
  | none => none
  | some idb => some (idb ++ p.data)

/-- Embeds `impl Decoder for RawPacket`: varint id, then `read_to_end`. -/
def raw_packet_decode (s : List Nat) : DecodeResult RawPacket :=
  match read_var_i32 s with
  | .error e => .error e
  | .ok (id, s1) =>
    match read_to_end s1 with
    | .error e => .error e
    | .ok (data, s2) => .ok (⟨id, data⟩, s2)

/-- Embeds `impl Encoder for UncompressedRawPacket` (`packet.rs`): encode the
`RawPacket` into a buffer, then write `varint(buffer.len() as i32)`
followed by the buffer. -/
def encode_uncompressed (fuel : Nat) (p : RawPacket) : Option (List Nat) :=
  match raw_packet_encode fuel p with
  | none => none
  | some buf =>
    match write_var_loop fuel (toSigned 32 (buf.length % 2 ^ 32)) with
    | none => none
    | some pre => some (pre ++ buf)

/-- Embeds `impl Decoder for UncompressedRawPacket` (`packet.rs`): read the outer
varint length `as usize`, `read_n` exactly that many bytes, decode the
`RawPacket` from that buffer. -/
def decode_uncompressed (s : List Nat) : DecodeResult RawPacket :=
  match read_var_i32 s with
  | .error e => .error e
  | .ok (li, s1) =>
    match read_n s1 (usize64 li) with
    | .error e => .error e
    | .ok (buf, s2) =>
      match raw_packet_decode buf with
      | .error e => .error e
      | .ok (p, _) => .ok (p, s2)

/-- Embeds `impl Decoder for CompressedRawPacket` (`packet.rs`): outer varint
length and `read_n` as in the uncompressed frame, then the inner
uncompressed-length varint `as usize`; zero means the rest of the buffer is
the raw `RawPacket` encoding, nonzero means the rest is inflated (the
parameter `inflate` stands for `ZlibDecoder::read_to_end`, an external
collaborator) and the inflated byte count must equal the declared length
exactly, else `DecompressionError`. -/
def decode_compressed (inflate : List Nat → Except DecodeError (List Nat))
    (s : List Nat) : DecodeResult RawPacket :=
  match read_var_i32 s with
  | .error e => .error e
  | .ok (li, s1) =>
    match read_n s1 (usize64 li) with
    | .error e => .error e
    | .ok (buf, s2) =>
      match read_var_i32 buf with
      | .error e => .error e
      | .ok (dli, inner) =>
        if usize64 dli = 0 then
          match raw_packet_decode inner with
          | .error e => .error e
          | .ok (p, _) => .ok (p, s2)
        else
          match inflate inner with
          | .error e => .error e
          | .ok out =>
            if out.length ≠ usize64 dli then .error .decompressionError
            else
              match raw_packet_decode out with
              | .error e => .error e
              | .ok (p, _) => .ok (p, s2)

/-- The Rust `as` conversion of a nonnegative quantity to a `tyBits`-bit signed
integer type: truncate to `tyBits` bits, reinterpret signed. -/
def as_cast (tyBits : Nat) (n : Nat) : Int := toSigned tyBits (n % 2 ^ tyBits)

/-- The generated per-member bitfield decode of `decode_bitmask_value!` /
`quote_decoder_bitfield` for a non-boolean member with declared `tyBits`-bit
type, width `size` and offset `current`, applied to the signed value
`encoded` of the backing word. -/
def decode_bitmask_value (tyBits : Nat) (encoded : Int) (current size : Nat)
    (signed : Bool) : Int :=
  let mask : Nat := (2 <<< (size - 1)) - 1
  let name : Int := as_cast tyBits (((encoded / (2 : Int) ^ current) % ((mask : Int) + 1)).toNat)
  if signed then
    if name > as_cast tyBits ((mask + 1) >>> 1) then name - as_cast tyBits (mask + 1)
    else name
  else name

/-- The `Position` encoder generated by `impl_encoder_trait`
(`protocol-derive/src/lib.rs`) for the struct of
`protocol-derive/tests/bitfield_position.rs`
(`x: i32 #[bitfield(size=26)]`, `z: i32 #[bitfield(size=26)]`,
`y: u16 #[bitfield(size=12)]`): `impl_encoder_trait` has no bitfield
handling, so every member is emitted through its own `Encoder` impl —
4 big-endian bytes for each `i32` and 2 for the `u16`. -/
def position_encode (x z : Int) (y : Nat) : List Nat :=
  write_int_be 4 x ++ write_int_be 4 z ++ write_uint_be 2 (y % 2 ^ 16)

/-- The masked unsigned sub-field value `(encoded >> current) & mask` of a
`size`-bit member at offset `current` of a backing word with signed value
`encoded` — the quantity the sign-extension rule of the spec speaks about. -/
def subfield (encoded : Int) (current size : Nat) : Int :=
  (encoded / (2 : Int) ^ current) % (2 : Int) ^ size

/-- Divergence of `UncompressedRawPacket::encode(p)`: no number of varint-loop
iterations completes it. -/
def uncompressed_encode_diverges (p : RawPacket) : Prop :=
  ∀ fuel : Nat, encode_uncompressed fuel p = none

theorem neg_ediv_128_neg {v : Int} (h : v < 0) : v / 128 < 0 := by
  have h128 : (0 : Int) < 128 := by norm_num
  exact Int.ediv_neg' h h128

theorem write_var_loop_neg {v : Int} (h : v < 0) : write_var_diverges v := by
  intro fuel
  induction fuel generalizing v with
  | zero => rfl
  | succ n ih =>
    have hnext : v / 128 < 0 := neg_ediv_128_neg h
    have hne : ¬(v / 128 = 0) := by omega
    simp only [write_var_loop, hne, if_false]
    rw [ih hnext]

theorem write_var_go_congr :
    ∀ f g v : Nat, v < 128 ^ f → v < 128 ^ g → write_var_go f v = write_var_go g v := by
  intro f
  induction f with
  | zero =>
    intro g v hf hg
    have hv : v = 0 := by simpa using hf
    subst hv
    cases g with
    | zero => rfl
    | succ g => simp [write_var_go]
  | succ f ih =>
    intro g v hf hg
    cases g with
    | zero =>
      have hv : v = 0 := by simpa using hg
      subst hv
      simp [write_var_go]
    | succ g =>
      by_cases h : v < 128
      · simp [write_var_go, h]
      · have hdf : v / 128 < 128 ^ f := by
          rw [Nat.div_lt_iff_lt_mul (by norm_num)]
          calc v < 128 ^ (f + 1) := hf
          _ = 128 ^ f * 128 := by ring
        have hdg : v / 128 < 128 ^ g := by
          rw [Nat.div_lt_iff_lt_mul (by norm_num)]
          calc v < 128 ^ (g + 1) := hg
          _ = 128 ^ g * 128 := by ring
        simp only [write_var_go, h, if_false]
        rw [ih g (v / 128) hdf hdg]

theorem write_var_go_eq_nat (f v : Nat) (h : v < 128 ^ f) :
    write_var_go f v = write_var_nat v :=
  write_var_go_congr f v v h (Nat.lt_pow_self (by norm_num) v)

/-- On a nonnegative in-fuel value the source loop terminates and emits
exactly the reference byte string. -/
theorem write_var_loop_nonneg :
    ∀ (fuel : Nat) (v : Nat), 0 < fuel → v < 128 ^ fuel →
      write_var_loop fuel (v : Int) = some (write_var_nat v) := by
  intro fuel
  induction fuel with
  | zero => intro v h; omega
  | succ f ih =>
    intro v _ hv
    rw [← write_var_go_eq_nat (f + 1) v hv]
    by_cases h : v < 128
    · have hdiv : (v : Int) / 128 = 0 := by
        rw [Int.ediv_eq_zero_of_lt] <;> omega
      have hmod : ((v : Int) % 128).toNat = v := by
        rw [Int.emod_eq_of_lt (by omega) (by exact_mod_cast h)]
        exact Int.toNat_natCast v
      simp [write_var_loop, hdiv, write_var_go, h, hmod]
    · have hf : 0 < f := by
        rcases Nat.eq_zero_or_pos f with h0 | h0
        · subst h0; simp at hv; omega
        · exact h0
      have hdf : v / 128 < 128 ^ f := by
        rw [Nat.div_lt_iff_lt_mul (by norm_num)]
        calc v < 128 ^ (f + 1) := hv
        _ = 128 ^ f * 128 := by ring
      have hdiv : (v : Int) / 128 = ((v / 128 : Nat) : Int) := by
        exact_mod_cast (Int.natCast_div v 128).symm
      have hpos : 0 < v / 128 := Nat.div_pos (by omega) (by norm_num)
      have hdivne : ¬((v : Int) / 128 = 0) := by
        rw [hdiv]
        exact_mod_cast Nat.pos_iff_ne_zero.mp hpos
      have hmod : ((v : Int) % 128).toNat = v % 128 := by
        rw [show ((v : Int) % 128) = ((v % 128 : Nat) : Int) from by exact_mod_cast (Int.natCast_mod v 128).symm]
        exact Int.toNat_natCast _
      simp only [write_var_loop, hdivne, if_false, hdiv, hmod, write_var_go, h,
        ih (v / 128) hf hdf, write_var_go_eq_nat f (v / 128) hdf]
      rw [if_neg (by exact_mod_cast Nat.pos_iff_ne_zero.mp hpos)]

theorem and_127_eq_mod (x : Nat) : x &&& 127 = x % 128 := by
  simpa using Nat.and_pow_two_sub_one_eq_mod x 7

theorem and_128_eq_zero {x : Nat} (h : x < 128) : x &&& 128 = 0 := by
  have h7 : x.testBit 7 = false := Nat.testBit_lt_two_pow (by omega)
  calc x &&& 128 = x &&& 2 ^ 7 := by norm_num
  _ = (x.testBit 7).toNat * 2 ^ 7 := Nat.and_two_pow x 7
  _ = 0 := by rw [h7]; rfl

theorem add_128_and_128 {x : Nat} (h : x < 128) : (x + 128) &&& 128 = 128 := by
  have h7 : (x + 128).testBit 7 = true := by
    have := Nat.testBit_mul_pow_two_add 1 (show x < 2 ^ 7 by omega) 7
    simpa [Nat.add_comm] using this
  calc (x + 128) &&& 128 = (x + 128) &&& 2 ^ 7 := by norm_num
  _ = ((x + 128).testBit 7).toNat * 2 ^ 7 := Nat.and_two_pow _ 7
  _ = 128 := by rw [h7]; rfl

theorem lor_shiftLeft (a b k : Nat) : (a ||| b) <<< k = a <<< k ||| b <<< k := by
  apply Nat.eq_of_testBit_eq
  intro j
  simp [Nat.testBit_shiftLeft, Nat.testBit_or, Bool.and_or_distrib_left]

theorem mod_lor_div_shift (v k : Nat) : v % 2 ^ k ||| (v / 2 ^ k) <<< k = v := by
  apply Nat.eq_of_testBit_eq
  intro j
  rw [show v / 2 ^ k = v >>> k from (Nat.shiftRight_eq_div_pow v k).symm]
  rcases Nat.lt_or_ge j k with hj | hj
  · simp [Nat.testBit_or, Nat.testBit_shiftLeft, Nat.testBit_mod_two_pow, hj,
      Nat.not_le_of_lt hj]
  · simp [Nat.testBit_or, Nat.testBit_shiftLeft, Nat.testBit_mod_two_pow,
      Nat.testBit_shiftRight, hj, Nat.not_lt_of_le hj, Nat.add_sub_cancel' hj]

theorem write_var_nat_small {v : Nat} (h : v < 128) : write_var_nat v = [v] := by
  cases v with
  | zero => rfl
  | succ n => simp [write_var_nat, write_var_go, h]

theorem write_var_nat_large {v : Nat} (h : 128 ≤ v) :
    write_var_nat v = (v % 128 + 128) :: write_var_nat (v / 128) := by
  obtain ⟨n, rfl⟩ : ∃ n, v = n + 1 := ⟨v - 1, by omega⟩
  show write_var_go (n + 1) (n + 1) = _
  simp only [write_var_go, if_neg (show ¬n + 1 < 128 by omega)]
  congr 1
  apply write_var_go_eq_nat
  have h1 : (n + 1) / 128 ≤ n := by omega
  exact Nat.lt_of_le_of_lt h1 (Nat.lt_pow_self (by norm_num) n)

theorem read_var_loop_append (maxBytes width : Nat) :
    ∀ (v bytes acc : Nat) (rest : List Nat),
      v < 2 ^ (width - 1 - 7 * bytes) →
      v < 128 ^ (maxBytes - bytes) →
      bytes < maxBytes →
      read_var_loop maxBytes width (write_var_nat v ++ rest) bytes acc
        = .ok (acc ||| v <<< (7 * bytes), rest) := by
  intro v
  induction v using Nat.strong_induction_on with
  | _ v ih =>
    intro bytes acc rest h1 h2 h3
    by_cases hsmall : v < 128
    · rw [write_var_nat_small hsmall]
      simp only [List.cons_append, List.nil_append, read_var_loop]
      rw [if_neg (by omega), if_pos (and_128_eq_zero hsmall), and_127_eq_mod,
        Nat.mod_eq_of_lt hsmall]
      have hsh : v <<< (7 * bytes % width) % 2 ^ width = v <<< (7 * bytes) := by
        rcases Nat.lt_or_ge (7 * bytes) width with hw | hw
        · rw [Nat.mod_eq_of_lt hw]
          apply Nat.mod_eq_of_lt
          rw [Nat.shiftLeft_eq]
          rcases Nat.eq_zero_or_pos v with h0 | h0
          · subst h0
            simp
          · calc v * 2 ^ (7 * bytes)
                < 2 ^ (width - 1 - 7 * bytes) * 2 ^ (7 * bytes) :=
                  mul_lt_mul_of_pos_right h1 (Nat.two_pow_pos _)
            _ = 2 ^ (width - 1 - 7 * bytes + 7 * bytes) := (pow_add 2 _ _).symm
            _ ≤ 2 ^ width := Nat.pow_le_pow_right (by norm_num) (by omega)
        · have hv0 : v = 0 := by
            have hz : width - 1 - 7 * bytes = 0 := by omega
            rw [hz] at h1
            omega
          subst hv0
          simp
      rw [hsh]
      rfl
    · have hpos : 0 < v := by omega
      have h128 : 128 ≤ v := Nat.le_of_not_lt hsmall
      have hvd : v / 128 < v := Nat.div_lt_self hpos (by norm_num)
      have hmod : v % 128 < 128 := Nat.mod_lt v (by norm_num)
      have hmb : bytes + 1 < maxBytes := by
        by_contra hcon
        have hle : maxBytes - bytes ≤ 1 := by omega
        have hp : (128 : Nat) ^ (maxBytes - bytes) ≤ 128 ^ 1 :=
          Nat.pow_le_pow_right (by norm_num) hle
        have : v < 128 := by
          calc v < 128 ^ (maxBytes - bytes) := h2
          _ ≤ 128 ^ 1 := hp
          _ = 128 := pow_one 128
        omega
      have hwidth : 7 * bytes + 8 ≤ width := by
        have hlt : (2 : Nat) ^ 7 < 2 ^ (width - 1 - 7 * bytes) := by
          calc (2 : Nat) ^ 7 = 128 := by norm_num
          _ ≤ v := h128
          _ < _ := h1
        have := (Nat.pow_lt_pow_iff_right (show 1 < 2 by norm_num)).mp hlt
        omega
      rw [write_var_nat_large h128]
      simp only [List.cons_append, read_var_loop]
      rw [if_neg (by omega),
        if_neg (by rw [add_128_and_128 hmod]; norm_num),
        and_127_eq_mod]
      have heq : (v % 128 + 128) % 128 = v % 128 := by omega
      rw [heq]
      have ih1 : v / 128 < 2 ^ (width - 1 - 7 * (bytes + 1)) := by
        rw [Nat.div_lt_iff_lt_mul (show 0 < 128 by norm_num)]
        calc v < 2 ^ (width - 1 - 7 * bytes) := h1
        _ = 2 ^ (width - 1 - 7 * (bytes + 1)) * 2 ^ 7 := by
            rw [← pow_add]
            congr 1
            omega
        _ = 2 ^ (width - 1 - 7 * (bytes + 1)) * 128 := by norm_num
      have ih2 : v / 128 < 128 ^ (maxBytes - (bytes + 1)) := by
        rw [Nat.div_lt_iff_lt_mul (show 0 < 128 by norm_num)]
        calc v < 128 ^ (maxBytes - bytes) := h2
        _ = 128 ^ (maxBytes - (bytes + 1)) * 128 := by
            rw [← pow_succ]
            congr 1
            omega
      rw [List.append_eq, ih (v / 128) hvd (bytes + 1) _ rest ih1 ih2 hmb]
      have hws : 7 * bytes % width = 7 * bytes := Nat.mod_eq_of_lt (by omega)
      have hm2 : (v % 128) <<< (7 * bytes) % 2 ^ width = (v % 128) <<< (7 * bytes) := by
        apply Nat.mod_eq_of_lt
        rw [Nat.shiftLeft_eq]
        calc v % 128 * 2 ^ (7 * bytes) < 128 * 2 ^ (7 * bytes) :=
              mul_lt_mul_of_pos_right hmod (Nat.two_pow_pos _)
        _ = 2 ^ (7 + 7 * bytes) := by rw [pow_add]; norm_num
        _ ≤ 2 ^ width := Nat.pow_le_pow_right (by norm_num) (by omega)
      have hcombine : (v % 128) <<< (7 * bytes) ||| (v / 128) <<< (7 * (bytes + 1))
          = v <<< (7 * bytes) := by
        calc (v % 128) <<< (7 * bytes) ||| (v / 128) <<< (7 * (bytes + 1))
            = (v % 128) <<< (7 * bytes) ||| ((v / 128) <<< 7) <<< (7 * bytes) := by
              rw [← Nat.shiftLeft_add]
              congr 1
              ring
        _ = (v % 128 ||| (v / 128) <<< 7) <<< (7 * bytes) := (lor_shiftLeft _ _ _).symm
        _ = v <<< (7 * bytes) := by
              congr 1
              have hsplit := mod_lor_div_shift v 7
              norm_num at hsplit
              exact hsplit
      rw [hws, hm2, Nat.or_assoc, hcombine]

theorem read_var_append (maxBytes width : Nat) (v : Nat) (rest : List Nat)
    (h1 : v < 2 ^ (width - 1)) (h2 : v < 128 ^ maxBytes) (h3 : 0 < maxBytes) :
    read_var maxBytes width (write_var_nat v ++ rest) = .ok ((v : Int), rest) := by
  rw [read_var, read_var_loop_append maxBytes width v 0 0 rest (by simpa using h1)
    (by simpa using h2) h3]
  have hv : (0 : Nat) ||| v <<< (7 * 0) = v := by simp
  rw [hv]
  have hmod : v % 2 ^ width = v := by
    apply Nat.mod_eq_of_lt
    exact Nat.lt_of_lt_of_le h1 (Nat.pow_le_pow_right (by norm_num) (by omega))
  show Except.ok (toSigned width (v % 2 ^ width), rest) = Except.ok ((v : Int), rest)
  rw [hmod, toSigned, if_pos h1]

theorem read_var_i32_append (v : Nat) (rest : List Nat) (h : v < 2 ^ 31) :
    read_var_i32 (write_var_nat v ++ rest) = .ok ((v : Int), rest) :=
  read_var_append 5 32 v rest h (Nat.lt_of_lt_of_le h (by norm_num)) (by norm_num)

theorem read_var_i64_append (v : Nat) (rest : List Nat) (h : v < 2 ^ 63) :
    read_var_i64 (write_var_nat v ++ rest) = .ok ((v : Int), rest) :=
  read_var_append 10 64 v rest h (Nat.lt_of_lt_of_le h (by norm_num)) (by norm_num)

theorem write_var_loop_int (fuel : Nat) (v : Int) (h0 : 0 ≤ v) (hf : 0 < fuel)
    (hv : v < (128 : Int) ^ fuel) : write_var_loop fuel v = some (write_var_nat v.toNat) := by
  have hcast : ((v.toNat : Nat) : Int) = v := Int.toNat_of_nonneg h0
  rw [← hcast]
  apply write_var_loop_nonneg fuel v.toNat hf
  have : ((v.toNat : Nat) : Int) < ((128 ^ fuel : Nat) : Int) := by
    rw [hcast]
    exact_mod_cast hv
  exact_mod_cast this

/-- Every byte of a varint encoding is a byte (`< 256`). -/
theorem write_var_nat_bytes_lt (v : Nat) : ∀ b ∈ write_var_nat v, b < 256 := by
  induction v using Nat.strong_induction_on with
  | _ v ih =>
    intro b hb
    by_cases hsmall : v < 128
    · rw [write_var_nat_small hsmall] at hb
      simp at hb
      omega
    · rw [write_var_nat_large (by omega)] at hb
      rcases List.mem_cons.mp hb with h | h
      · have : v % 128 < 128 := Nat.mod_lt v (by norm_num)
        omega
      · exact ih (v / 128) (Nat.div_lt_self (by omega) (by norm_num)) b h

theorem read_bool_write_bool (b : Bool) (rest : List Nat) :
    read_bool (write_bool b ++ rest) = .ok (b, rest) := by
  cases b <;> rfl

theorem read_be_append :
    ∀ (k acc n : Nat) (rest : List Nat),
      read_be k acc (be_bytes k n ++ rest) = .ok (acc * 2 ^ (8 * k) + n % 2 ^ (8 * k), rest) := by
  intro k
  induction k with
  | zero => intro acc n rest; simp [be_bytes, read_be, Nat.mod_one]
  | succ k ih =>
    intro acc n rest
    show read_be (k + 1) acc ((n / 2 ^ (8 * k) % 256) :: (be_bytes k n ++ rest)) = _
    show read_be k (acc * 256 + n / 2 ^ (8 * k) % 256) (be_bytes k n ++ rest) = _
    rw [ih]
    congr 2
    have hsplit : n % 2 ^ (8 * (k + 1)) = n % 2 ^ (8 * k) + 2 ^ (8 * k) * (n / 2 ^ (8 * k) % 256) := by
      have h1 : (2 : Nat) ^ (8 * (k + 1)) = 2 ^ (8 * k) * 256 := by
        rw [show 8 * (k + 1) = 8 * k + 8 by ring, pow_add]
        norm_num
      rw [h1, Nat.mod_mul]
    rw [hsplit]
    have h2 : (2 : Nat) ^ (8 * (k + 1)) = 2 ^ (8 * k) * 256 := by
      rw [show 8 * (k + 1) = 8 * k + 8 by ring, pow_add]
      norm_num
    rw [h2]
    ring

theorem read_uint_be_append (k n : Nat) (rest : List Nat) (h : n < 2 ^ (8 * k)) :
    read_uint_be k (write_uint_be k n ++ rest) = .ok (n, rest) := by
  rw [read_uint_be, write_uint_be, read_be_append]
  rw [Nat.mod_eq_of_lt h]
  norm_num

theorem wrap_lt (w : Nat) (v : Int) : wrap w v < 2 ^ w := by
  rw [wrap]
  have hpos : (0 : Int) < 2 ^ w := by positivity
  have h1 : v % 2 ^ w < 2 ^ w := Int.emod_lt_of_pos v hpos
  have h2 : 0 ≤ v % 2 ^ w := Int.emod_nonneg v (by positivity)
  have hc : ((2 ^ w : Nat) : Int) = 2 ^ w := by push_cast; ring
  omega

theorem toSigned_wrap {w : Nat} {v : Int} (hw : 0 < w)
    (h1 : -(2 ^ (w - 1)) ≤ v) (h2 : v < 2 ^ (w - 1)) :
    toSigned w (wrap w v) = v := by
  have hsplit : (2 : Int) ^ w = 2 ^ (w - 1) * 2 := by
    rw [← pow_succ]
    congr 1
    omega
  have hcast : ((2 ^ (w - 1) : Nat) : Int) = 2 ^ (w - 1) := by push_cast; ring
  have hp : (0 : Int) < 2 ^ (w - 1) := by positivity
  rcases le_or_lt 0 v with hv | hv
  · have hmod : v % 2 ^ w = v := Int.emod_eq_of_lt hv (by omega)
    have htn : ((v.toNat : Nat) : Int) = v := Int.toNat_of_nonneg hv
    have hlt : v.toNat < 2 ^ (w - 1) := by
      have : ((v.toNat : Nat) : Int) < ((2 ^ (w - 1) : Nat) : Int) := by
        rw [htn, hcast]
        exact h2
      exact_mod_cast this
    rw [toSigned, wrap, hmod, if_pos hlt, htn]
  · have hvrange : 0 ≤ v + 2 ^ w := by omega
    have hmod : v % 2 ^ w = v + 2 ^ w := by
      have e1 : (v + 2 ^ w * 1) % 2 ^ w = v % 2 ^ w := Int.add_mul_emod_self_left v (2 ^ w) 1
      have e2 : (v + 2 ^ w) % 2 ^ w = v + 2 ^ w :=
        Int.emod_eq_of_lt hvrange (by omega)
      calc v % 2 ^ w = (v + 2 ^ w * 1) % 2 ^ w := e1.symm
      _ = (v + 2 ^ w) % 2 ^ w := by ring_nf
      _ = v + 2 ^ w := e2
    have htn : (((v + 2 ^ w).toNat : Nat) : Int) = v + 2 ^ w := Int.toNat_of_nonneg hvrange
    have hge : ¬((v + 2 ^ w).toNat < 2 ^ (w - 1)) := by
      intro hcon
      have : (((v + 2 ^ w).toNat : Nat) : Int) < ((2 ^ (w - 1) : Nat) : Int) := by
        exact_mod_cast hcon
      rw [htn, hcast] at this
      omega
    rw [toSigned, wrap, hmod, if_neg hge, htn]
    ring

theorem read_int_be_append (k : Nat) (v : Int) (rest : List Nat) (hk : 0 < k)
    (h1 : -(2 ^ (8 * k - 1)) ≤ v) (h2 : v < 2 ^ (8 * k - 1)) :
    read_int_be k (write_int_be k v ++ rest) = .ok (v, rest) := by
  have hb := read_be_append k 0 (wrap (8 * k) v) rest
  rw [Nat.mod_eq_of_lt (wrap_lt (8 * k) v),
    show (0 : Nat) * 2 ^ (8 * k) + wrap (8 * k) v = wrap (8 * k) v from by ring] at hb
  rw [read_int_be, write_int_be, hb]
  show Except.ok (toSigned (8 * k) (wrap (8 * k) v), rest) = Except.ok (v, rest)
  rw [toSigned_wrap (by omega) h1 h2]

theorem usize64_natCast (n : Nat) (h : n < 2 ^ 64) : usize64 (n : Int) = n := by
  rw [usize64, wrap]
  have hmod : (n : Int) % 2 ^ 64 = (n : Int) := by
    apply Int.emod_eq_of_lt (by positivity)
    exact_mod_cast h
  rw [hmod, Int.toNat_natCast]

theorem read_exact_append (s rest : List Nat) :
    read_exact s.length (s ++ rest) = .ok (s, rest) := by
  rw [read_exact, if_pos (by simp), List.take_left, List.drop_left]

theorem read_uuid_append (u rest : List Nat) (h : u.length = 16) :
    read_uuid (write_uuid u ++ rest) = .ok (u, rest) := by
  rw [read_uuid, write_uuid, ← h, read_exact_append]

theorem lt_128_pow {n fuel : Nat} (h : n < 2 ^ 31) (hf : 5 ≤ fuel) : n < 128 ^ fuel :=
  Nat.lt_of_lt_of_le h
    (Nat.le_trans (by norm_num) (Nat.pow_le_pow_right (by norm_num) hf))

theorem toSigned32_of_lt {n : Nat} (h : n < 2 ^ 31) : toSigned 32 (n % 2 ^ 32) = (n : Int) := by
  rw [Nat.mod_eq_of_lt (by omega), toSigned, if_pos (by simpa using h)]

/-- Writing `value.len() as i32` as a varint: for a representable length it
is the plain varint of the length. -/
theorem write_var_loop_nat32 (fuel n : Nat) (hf : 5 ≤ fuel) (h : n < 2 ^ 31) :
    write_var_loop fuel (toSigned 32 (n % 2 ^ 32)) = some (write_var_nat n) := by
  rw [toSigned32_of_lt h]
  exact write_var_loop_nonneg fuel n (by omega) (lt_128_pow h hf)

theorem write_string_ok (fuel : Nat) (s : List Nat) (maxLength : Nat)
    (hlen : s.length ≤ maxLength) (hmax : maxLength < 2 ^ 16) (hf : 5 ≤ fuel) :
    write_string fuel s maxLength = some (.ok (write_var_nat s.length ++ s)) := by
  rw [write_string, if_neg (by omega), write_var_loop_nat32 fuel s.length hf (by omega)]

theorem read_string_append (maxLength : Nat) (utf8 : List Nat → Bool) (s rest : List Nat)
    (hlen : s.length ≤ maxLength) (hmax : maxLength < 2 ^ 16) (hutf : utf8 s = true) :
    read_string maxLength utf8 (write_var_nat s.length ++ s ++ rest) = .ok (s, rest) := by
  rw [read_string, List.append_assoc, read_var_i32_append s.length (s ++ rest) (by omega)]
  dsimp only
  rw [usize64_natCast s.length (by omega)]
  rw [if_neg (by rw [Nat.mod_eq_of_lt (by omega)]; omega)]
  rw [read_exact_append]
  dsimp only
  rw [if_pos hutf]

theorem write_byte_array_ok (fuel : Nat) (d : List Nat) (hlen : d.length < 2 ^ 31)
    (hf : 5 ≤ fuel) :
    write_byte_array fuel d = some (write_var_nat d.length ++ d) := by
  rw [write_byte_array, write_var_loop_nat32 fuel d.length hf hlen]

theorem read_byte_array_append (d rest : List Nat) (hlen : d.length < 2 ^ 31) :
    read_byte_array (write_var_nat d.length ++ d ++ rest) = .ok (d, rest) := by
  rw [read_byte_array, List.append_assoc, read_var_i32_append d.length (d ++ rest) hlen]
  dsimp only
  rw [usize64_natCast d.length (by omega), read_exact_append]

theorem read_n_append (s rest : List Nat) : read_n (s ++ rest) s.length = .ok (s, rest) := by
  rw [read_n, if_neg (by simp), List.take_left, List.drop_left]

theorem read_n_short (s : List Nat) (len : Nat) (h : s.length < len) :
    read_n s len = .error (.incomplete (len - s.length)) := by
  rw [read_n, if_pos (by omega), show min len s.length = s.length from by omega]

theorem raw_packet_decode_append (id : Nat) (data : List Nat) (hid : id < 2 ^ 31) :
    raw_packet_decode (write_var_nat id ++ data) = .ok (⟨(id : Int), data⟩, []) := by
  rw [raw_packet_decode, read_var_i32_append id data hid]
  rfl

theorem raw_packet_encode_ok (fuel : Nat) (id : Nat) (data : List Nat)
    (hid : id < 2 ^ 31) (hf : 5 ≤ fuel) :
    raw_packet_encode fuel ⟨(id : Int), data⟩ = some (write_var_nat id ++ data) := by
  rw [raw_packet_encode]
  show (match write_var_loop fuel ((id : Nat) : Int) with
    | none => none
    | some idb => some (idb ++ data)) = some (write_var_nat id ++ data)
  rw [write_var_loop_nonneg fuel id (by omega) (lt_128_pow hid hf)]

theorem encode_uncompressed_ok (fuel : Nat) (id : Nat) (data : List Nat)
    (hid : id < 2 ^ 31) (hlen : (write_var_nat id ++ data).length < 2 ^ 31) (hf : 5 ≤ fuel) :
    encode_uncompressed fuel ⟨(id : Int), data⟩
      = some (write_var_nat (write_var_nat id ++ data).length ++ (write_var_nat id ++ data)) := by
  rw [encode_uncompressed, raw_packet_encode_ok fuel id data hid hf]
  dsimp only
  rw [write_var_loop_nat32 fuel (write_var_nat id ++ data).length hf hlen]

theorem decode_uncompressed_append (id : Nat) (data rest : List Nat) (hid : id < 2 ^ 31)
    (hlen : (write_var_nat id ++ data).length < 2 ^ 31) :
    decode_uncompressed
        (write_var_nat (write_var_nat id ++ data).length ++ (write_var_nat id ++ data) ++ rest)
      = .ok (⟨(id : Int), data⟩, rest) := by
  rw [decode_uncompressed, List.append_assoc,
    read_var_i32_append (write_var_nat id ++ data).length ((write_var_nat id ++ data) ++ rest) hlen]
  dsimp only
  rw [usize64_natCast (write_var_nat id ++ data).length (by omega),
    read_n_append (write_var_nat id ++ data) rest]
  dsimp only
  rw [raw_packet_decode_append id data hid]

theorem two_shiftLeft_pred {size : Nat} (h : 1 ≤ size) : (2 <<< (size - 1) : Nat) = 2 ^ size := by
  rw [Nat.shiftLeft_eq]
  calc 2 * 2 ^ (size - 1) = 2 ^ (size - 1) * 2 := by ring
  _ = 2 ^ (size - 1 + 1) := (pow_succ 2 _).symm
  _ = 2 ^ size := by congr 1; omega

theorem as_cast_small {tyBits n : Nat} (h : n < 2 ^ (tyBits - 1)) : as_cast tyBits n = (n : Int) := by
  have hlt : n < 2 ^ tyBits :=
    Nat.lt_of_lt_of_le h (Nat.pow_le_pow_right (by norm_num) (by omega))
  rw [as_cast, Nat.mod_eq_of_lt hlt, toSigned, if_pos h]

theorem subfield_nonneg (encoded : Int) (current size : Nat) : 0 ≤ subfield encoded current size :=
  Int.emod_nonneg _ (by positivity)

theorem subfield_lt (encoded : Int) (current size : Nat) :
    subfield encoded current size < 2 ^ size :=
  Int.emod_lt_of_pos _ (by positivity)

/-- The generated signed bitfield decode, characterised on the masked
unsigned sub-field value: `2^size` is subtracted exactly when that value
strictly exceeds `2^(size-1)`. -/
theorem decode_bitmask_value_signed (tyBits : Nat) (encoded : Int) (current size : Nat)
    (h1 : 1 ≤ size) (h2 : size + 2 ≤ tyBits) :
    decode_bitmask_value tyBits encoded current size true
      = if 2 ^ (size - 1) < subfield encoded current size
        then subfield encoded current size - 2 ^ size
        else subfield encoded current size := by
  have honele : (1 : Nat) ≤ 2 ^ size := Nat.one_le_two_pow
  have hmask : ((2 <<< (size - 1)) - 1 : Nat) = 2 ^ size - 1 := by rw [two_shiftLeft_pred h1]
  have hmaskI : ((((2 <<< (size - 1)) - 1 : Nat) : Int) + 1) = (2 : Int) ^ size := by
    rw [hmask, Nat.cast_sub honele]
    push_cast
    ring
  have hsub : ((2 <<< (size - 1)) - 1 + 1 : Nat) = 2 ^ size := by
    rw [hmask]
    omega
  have hovf : ((2 ^ size : Nat) >>> 1) = 2 ^ (size - 1) := by
    rw [Nat.shiftRight_eq_div_pow, pow_one,
      show (2 : Nat) ^ size = 2 ^ (size - 1) * 2 from by rw [← pow_succ]; congr 1; omega,
      Nat.mul_div_cancel _ (by norm_num)]
  have hcastpow : ∀ k : Nat, ((2 ^ k : Nat) : Int) = (2 : Int) ^ k := by
    intro k
    push_cast
    ring
  have hsf0 := subfield_nonneg encoded current size
  have hsflt := subfield_lt encoded current size
  have hsfn : (subfield encoded current size).toNat < 2 ^ size := by
    have := hcastpow size
    unfold subfield at *
    omega
  have hvala : as_cast tyBits ((encoded / 2 ^ current % 2 ^ size).toNat)
      = subfield encoded current size := by
    rw [show (encoded / 2 ^ current % 2 ^ size : Int) = subfield encoded current size from rfl]
    rw [as_cast_small (Nat.lt_of_lt_of_le hsfn
      (Nat.pow_le_pow_right (by norm_num) (by omega)))]
    exact Int.toNat_of_nonneg hsf0
  have hovfa : as_cast tyBits (2 ^ (size - 1)) = (2 : Int) ^ (size - 1) := by
    rw [as_cast_small (Nat.pow_lt_pow_right (by norm_num) (by omega)), hcastpow]
  have hsuba : as_cast tyBits (2 ^ size) = (2 : Int) ^ size := by
    rw [as_cast_small (Nat.pow_lt_pow_right (by norm_num) (by omega)), hcastpow]
  simp only [decode_bitmask_value, if_true, hmaskI, hsub, hovf, hvala, hovfa, hsuba]

theorem pow31_le_128pow {fuel : Nat} (hf : 5 ≤ fuel) : (2 ^ 31 : Nat) ≤ 128 ^ fuel := by
  calc (2 ^ 31 : Nat) ≤ 128 ^ 5 := by norm_num
  _ ≤ 128 ^ fuel := Nat.pow_le_pow_right (by norm_num) hf

theorem pow63_le_128pow {fuel : Nat} (hf : 10 ≤ fuel) : (2 ^ 63 : Nat) ≤ 128 ^ fuel := by
  calc (2 ^ 63 : Nat) ≤ 128 ^ 10 := by norm_num
  _ ≤ 128 ^ fuel := Nat.pow_le_pow_right (by norm_num) hf

theorem int_lt_128_pow {v : Int} {b fuel : Nat} (h : v < 2 ^ b)
    (hle : (2 ^ b : Nat) ≤ 128 ^ fuel) : v < (128 : Int) ^ fuel := by
  have h1 : ((2 ^ b : Nat) : Int) = (2 : Int) ^ b := by push_cast; ring
  have h2 : ((128 ^ fuel : Nat) : Int) = (128 : Int) ^ fuel := by push_cast; ring
  have h4 : ((2 ^ b : Nat) : Int) ≤ ((128 ^ fuel : Nat) : Int) := by exact_mod_cast hle
  omega

/-- Lemma: `impl Encoder for String` rejects over-long strings before writing
anything, at every fuel. -/
theorem string_encode_default_too_long (fuel : Nat) (s : List Nat) (h : 32768 < s.length) :
    string_encode_default fuel s = some (.error (.stringTooLong s.length 32768)) := by
  rw [string_encode_default, write_string, if_pos h]

/-- C1: the spec claims `write_var_i32` writes exactly 5 bytes for every
negative 32-bit value and `write_var_i64` exactly 10 bytes for every
negative 64-bit value.  The loop in the code shifts with the *arithmetic* right
shift `value >> 7`, which keeps a negative value negative forever, so the
loop never terminates on any negative input: at `-1`, at the least `i32`
`-2^31`, and at the least `i64` `-2^63`, no number of iterations completes
the write.  The spec is the evident intent (the decoder accepts at most
5/10 bytes); the code is the bug. -/
theorem c1_write_var_negative_never_terminates :
    write_var_diverges (-1) ∧ write_var_diverges (-2147483648) ∧
      write_var_diverges (-9223372036854775808) :=
  ⟨write_var_loop_neg (by norm_num), write_var_loop_neg (by norm_num),
    write_var_loop_neg (by norm_num)⟩

/-- C2: the spec claims `read_string` fails with `StringTooLong` whenever
the declared varint prefix exceeds `max_length`.  The code compares
`length as u16 > max_length`, truncating the declared length to 16 bits:
with `max_length = 10`, the 3-byte prefix `[0x80, 0x80, 0x04]` declares
65536 (> 10), but `65536 as u16 = 0` passes the check and the decoder goes
on to read 65536 payload bytes (here failing with a plain I/O error on the
short stream), instead of failing with `StringTooLong{65536, 10}`.  A
prefix declaring 300 (within `u16`) still fails as the spec says. -/
theorem c2_read_string_truncates_bound_check :
    read_var_i32 [128, 128, 4] = .ok (65536, []) ∧
      read_string 10 (fun _ => true) (List.append [128, 128, 4] (List.replicate 20 65))
        = .error .ioError ∧
      read_string 10 (fun _ => true) [172, 2] = .error (.stringTooLong 300 10) :=
  ⟨rfl, rfl, rfl⟩

/-- C3, counterexample: for a signed member of width 26 (as in the repository
`Position` test layout `{26, 26, 12}`, where `x` sits at offset 38), the
backing word `-2^63` has masked sub-field value `2^25 = 33554432`, which
exceeds `2^25 - 1`; the claim says `2^26` is then subtracted (giving
`-33554432`), but the strict `>` comparison of the generated decoder leaves the
value unchanged. -/
theorem c3_counterexample :
    subfield (-(2 ^ 63)) 38 26 = 33554432 ∧
      decode_bitmask_value 32 (-(2 ^ 63)) 38 26 true = 33554432 ∧
      (33554432 : Int) ≠ 33554432 - 67108864 := by
  refine ⟨rfl, rfl, by norm_num⟩

/-- C3, amended: the generated decoder subtracts `2^size` exactly when the
masked unsigned sub-field value *strictly exceeds* `2^(size-1)` (not
`2^(size-1) - 1`); it returns the value unchanged otherwise, and hence
agrees with twos-complement sign extension at every sub-field value except
exactly `2^(size-1)`. -/
theorem c3_sign_extension (tyBits : Nat) (encoded : Int) (current size : Nat)
    (h1 : 1 ≤ size) (h2 : size + 2 ≤ tyBits) :
    (2 ^ (size - 1) < subfield encoded current size →
        decode_bitmask_value tyBits encoded current size true
          = subfield encoded current size - 2 ^ size) ∧
      (subfield encoded current size ≤ 2 ^ (size - 1) →
        decode_bitmask_value tyBits encoded current size true = subfield encoded current size) ∧
      (subfield encoded current size ≠ 2 ^ (size - 1) →
        decode_bitmask_value tyBits encoded current size true
          = toSigned size (subfield encoded current size).toNat) := by
  have hd := decode_bitmask_value_signed tyBits encoded current size h1 h2
  have hsf0 := subfield_nonneg encoded current size
  have hsflt := subfield_lt encoded current size
  have hc : ((2 ^ (size - 1) : Nat) : Int) = (2 : Int) ^ (size - 1) := by push_cast; ring
  have hc2 : ((2 ^ size : Nat) : Int) = (2 : Int) ^ size := by push_cast; ring
  refine ⟨fun h => ?_, fun h => ?_, fun h => ?_⟩
  · rw [hd, if_pos h]
  · rw [hd, if_neg (by omega)]
  · rw [hd, toSigned]
    by_cases hb : (2 : Int) ^ (size - 1) < subfield encoded current size
    · rw [if_pos hb, if_neg (by omega), Int.toNat_of_nonneg hsf0]
    · rw [if_neg hb, if_pos (by omega), Int.toNat_of_nonneg hsf0]

/-- C3, witness: the signed test vector of the repository: backing word
`-137164079660992`, member `x` of width 26 at offset 38 has masked value
`67108364 > 2^25`, and the decoder subtracts `2^26`, yielding `-500`. -/
theorem c3_sign_extension_witness :
    2 ^ (26 - 1) < subfield (-137164079660992) 38 26 ∧
      decode_bitmask_value 32 (-137164079660992) 38 26 true
        = subfield (-137164079660992) 38 26 - 2 ^ 26 :=
  ⟨by decide, (c3_sign_extension 32 (-137164079660992) 38 26 (by norm_num) (by norm_num)).1
    (by decide)⟩

/-- C4: the spec (and the repository test `bitfield_position.rs`) claims
the derived encoder for `Position {x: i32 (26 bits), z: i32 (26 bits),
y: u16 (12 bits)}` ORs all members into one 64-bit word and writes its 8
big-endian bytes, `275152780755008` for `x=1000, z=-1000, y=64`.
`impl_encoder_trait` in `protocol-derive/src/lib.rs` has no bitfield
handling at all: it writes each member with its own fixed-width codec,
emitting 10 bytes (4 + 4 + 2), not the 8-byte backing word. -/
theorem c4_position_encoder_writes_members_separately :
    position_encode 1000 (-1000) 64 = [0, 0, 3, 232, 255, 255, 252, 24, 0, 64] ∧
      be_bytes 8 275152780755008 = [0, 0, 250, 63, 255, 193, 128, 64] ∧
      position_encode 1000 (-1000) 64 ≠ be_bytes 8 275152780755008 :=
  ⟨rfl, rfl, by decide⟩

/-- C5: when the outer varint prefix of an uncompressed frame declares `n`
bytes but only `k < n` further bytes are available, frame decoding fails
with `Incomplete` carrying `bytes_needed = n - k` — the distinct decode
error kind produced by `read_n`, not a generic I/O error. -/
theorem c5_truncated_frame_incomplete (n : Nat) (body : List Nat)
    (hshort : body.length < n) (h31 : n < 2 ^ 31) :
    decode_uncompressed (write_var_nat n ++ body)
      = .error (.incomplete (n - body.length)) := by
  rw [decode_uncompressed, read_var_i32_append n body h31]
  dsimp only
  rw [usize64_natCast n (by omega), read_n_short body n hshort]

/-- C5, witness: a frame declaring 3 bytes over a 1-byte remainder fails
with `Incomplete {bytes_needed = 2}`. -/
theorem c5_truncated_frame_incomplete_witness :
    decode_uncompressed (write_var_nat 3 ++ [7]) = .error (.incomplete (3 - 1)) :=
  c5_truncated_frame_incomplete 3 [7] (by norm_num) (by norm_num)

/-- C6, counterexample: the claim quantifies over every id, but a
`RawPacket` with the negative id `-1` cannot be framed at all: the varint
write of the id never terminates (see C1), so the uncompressed-frame
encoder produces no byte sequence at any number of loop iterations, and no
round trip exists. -/
theorem c6_counterexample : uncompressed_encode_diverges ⟨-1, []⟩ := by
  intro fuel
  rw [encode_uncompressed, raw_packet_encode]
  rw [show RawPacket.id ⟨-1, []⟩ = (-1 : Int) from rfl,
    write_var_loop_neg (by norm_num) fuel]

/-- C6, amended: for every `RawPacket` with *nonnegative* id below `2^31`
and payload of representable length, encoding through the uncompressed
frame and decoding the result (with any trailing bytes) returns the same id
and payload. -/
theorem c6_uncompressed_roundtrip (fuel : Nat) (id : Nat) (data rest : List Nat)
    (hf : 5 ≤ fuel) (hid : id < 2 ^ 31)
    (hlen : (write_var_nat id ++ data).length < 2 ^ 31) :
    encode_uncompressed fuel ⟨(id : Int), data⟩
        = some (write_var_nat (write_var_nat id ++ data).length ++ (write_var_nat id ++ data)) ∧
      decode_uncompressed
          (write_var_nat (write_var_nat id ++ data).length ++ (write_var_nat id ++ data) ++ rest)
        = .ok (⟨(id : Int), data⟩, rest) :=
  ⟨encode_uncompressed_ok fuel id data hid hlen hf,
    decode_uncompressed_append id data rest hid hlen⟩

/-- C6, witness: `RawPacket {id := 1, data := [7]}` frames to `[2, 1, 7]`
and decodes back. -/
theorem c6_uncompressed_roundtrip_witness :
    encode_uncompressed 5 ⟨(1 : Int), [7]⟩
        = some (write_var_nat (write_var_nat 1 ++ [7]).length ++ (write_var_nat 1 ++ [7])) ∧
      decode_uncompressed
          (write_var_nat (write_var_nat 1 ++ [7]).length ++ (write_var_nat 1 ++ [7]) ++ [])
        = .ok (⟨(1 : Int), [7]⟩, []) :=
  c6_uncompressed_roundtrip 5 1 [7] [] (by norm_num) (by norm_num) (by decide)

/-- C7: on a compressed frame whose inner uncompressed-length prefix is
nonzero, the decoder inflates the remaining bytes (via the external
`inflate` collaborator) and fails with `DecompressionError` whenever the
inflated byte count differs from the declared prefix; a packet is returned
only when they are exactly equal. -/
theorem c7_decompressed_length_check
    (inflate : List Nat → Except DecodeError (List Nat))
    (dlen : Nat) (inner rest out : List Nat) (h0 : 0 < dlen) (h31 : dlen < 2 ^ 31)
    (hbuf : (write_var_nat dlen ++ inner).length < 2 ^ 31)
    (hinf : inflate inner = .ok out) :
    (out.length ≠ dlen →
      decode_compressed inflate
          (write_var_nat (write_var_nat dlen ++ inner).length
            ++ (write_var_nat dlen ++ inner) ++ rest)
        = .error .decompressionError) ∧
      (∀ (p : RawPacket) (rem : List Nat),
        decode_compressed inflate
            (write_var_nat (write_var_nat dlen ++ inner).length
              ++ (write_var_nat dlen ++ inner) ++ rest)
          = .ok (p, rem) → out.length = dlen) := by
  have hred : decode_compressed inflate
      (write_var_nat (write_var_nat dlen ++ inner).length
        ++ (write_var_nat dlen ++ inner) ++ rest)
      = if out.length ≠ dlen then .error .decompressionError
        else match raw_packet_decode out with
          | .error e => .error e
          | .ok (p, _) => .ok (p, rest) := by
    rw [decode_compressed, List.append_assoc,
      read_var_i32_append (write_var_nat dlen ++ inner).length _ hbuf]
    dsimp only
    rw [usize64_natCast _ (by omega), read_n_append]
    dsimp only
    rw [read_var_i32_append dlen inner h31]
    dsimp only
    rw [usize64_natCast dlen (by omega), if_neg (by omega), hinf]
  constructor
  · intro hne
    rw [hred, if_pos hne]
  · intro p rem hok
    by_contra hne
    rw [hred, if_pos hne] at hok
    simp at hok

/-- C7, witness: a frame declaring 2 uncompressed bytes whose (stub)
inflation yields 1 byte fails with `DecompressionError`. -/
theorem c7_decompressed_length_check_witness :
    decode_compressed (fun _ => .ok [0])
        (write_var_nat (write_var_nat 2 ++ []).length ++ (write_var_nat 2 ++ []) ++ [])
      = .error .decompressionError :=
  (c7_decompressed_length_check (fun _ => .ok [0]) 2 [] [] [0]
    (by norm_num) (by norm_num) (by decide) rfl).1 (by decide)

/-- C8, counterexample: the claim quantifies varint round-trips over every
valid value, but encoding the valid `i32` value `-1` never terminates (the
arithmetic shift keeps the value negative), so `decode(encode(-1))` has no
value to return. -/
theorem c8_counterexample : write_var_diverges (-1) :=
  write_var_loop_neg (by norm_num)

/-- C8, amended: every primitive codec round-trips on its valid values —
booleans, `k`-byte big-endian unsigned and signed integers, varint `i32`s
and `i64`s restricted to *nonnegative* values (negative values make the
encoder diverge, see C1), bounded strings within their maximum length,
byte arrays of representable length, and 16-byte UUIDs — with any trailing
bytes of the stream preserved. -/
theorem c8_primitive_roundtrip :
    (∀ (b : Bool) (rest : List Nat), read_bool (write_bool b ++ rest) = .ok (b, rest)) ∧
      (∀ (k n : Nat) (rest : List Nat), n < 2 ^ (8 * k) →
        read_uint_be k (write_uint_be k n ++ rest) = .ok (n, rest)) ∧
      (∀ (k : Nat) (v : Int) (rest : List Nat), 0 < k →
        -(2 ^ (8 * k - 1)) ≤ v → v < 2 ^ (8 * k - 1) →
        read_int_be k (write_int_be k v ++ rest) = .ok (v, rest)) ∧
      (∀ (fuel : Nat) (v : Int) (rest : List Nat), 5 ≤ fuel → 0 ≤ v → v < 2 ^ 31 →
        write_var_loop fuel v = some (write_var_nat v.toNat) ∧
          read_var_i32 (write_var_nat v.toNat ++ rest) = .ok (v, rest)) ∧
      (∀ (fuel : Nat) (v : Int) (rest : List Nat), 10 ≤ fuel → 0 ≤ v → v < 2 ^ 63 →
        write_var_loop fuel v = some (write_var_nat v.toNat) ∧
          read_var_i64 (write_var_nat v.toNat ++ rest) = .ok (v, rest)) ∧
      (∀ (fuel maxLength : Nat) (utf8 : List Nat → Bool) (s rest : List Nat),
        5 ≤ fuel → s.length ≤ maxLength → maxLength < 2 ^ 16 → utf8 s = true →
        write_string fuel s maxLength = some (.ok (write_var_nat s.length ++ s)) ∧
          read_string maxLength utf8 (write_var_nat s.length ++ s ++ rest) = .ok (s, rest)) ∧
      (∀ (fuel : Nat) (d rest : List Nat), 5 ≤ fuel → d.length < 2 ^ 31 →
        write_byte_array fuel d = some (write_var_nat d.length ++ d) ∧
          read_byte_array (write_var_nat d.length ++ d ++ rest) = .ok (d, rest)) ∧
      (∀ (u rest : List Nat), u.length = 16 → read_uuid (write_uuid u ++ rest) = .ok (u, rest)) := by
  have hcast31 : ((2 ^ 31 : Nat) : Int) = (2 : Int) ^ 31 := by norm_num
  have hcast63 : ((2 ^ 63 : Nat) : Int) = (2 : Int) ^ 63 := by norm_num
  refine ⟨read_bool_write_bool, read_uint_be_append, read_int_be_append, ?_, ?_, ?_, ?_,
    read_uuid_append⟩
  · intro fuel v rest hf h0 hv
    have h128 : v < (128 : Int) ^ fuel := int_lt_128_pow hv (pow31_le_128pow hf)
    have htn : v.toNat < 2 ^ 31 := by omega
    exact ⟨write_var_loop_int fuel v h0 (by omega) h128,
      by rw [read_var_i32_append v.toNat rest htn, Int.toNat_of_nonneg h0]⟩
  · intro fuel v rest hf h0 hv
    have h128 : v < (128 : Int) ^ fuel := int_lt_128_pow hv (pow63_le_128pow hf)
    have htn : v.toNat < 2 ^ 63 := by omega
    exact ⟨write_var_loop_int fuel v h0 (by omega) h128,
      by rw [read_var_i64_append v.toNat rest htn, Int.toNat_of_nonneg h0]⟩
  · intro fuel maxLength utf8 s rest hf hlen hmax hutf
    exact ⟨write_string_ok fuel s maxLength hlen hmax hf,
      read_string_append maxLength utf8 s rest hlen hmax hutf⟩
  · intro fuel d rest hf hlen
    exact ⟨write_byte_array_ok fuel d hlen hf, read_byte_array_append d rest hlen⟩

/-- C8, witness: the bounded-string codec at `max_length = 20` round-trips
the two-byte string `[104, 105]` with trailing byte `[9]` preserved. -/
theorem c8_primitive_roundtrip_witness :
    write_string 5 [104, 105] 20 = some (.ok (write_var_nat 2 ++ [104, 105])) ∧
      read_string 20 (fun _ => true) (write_var_nat 2 ++ [104, 105] ++ [9])
        = .ok ([104, 105], [9]) :=
  c8_primitive_roundtrip.2.2.2.2.2.1 5 20 (fun _ => true) [104, 105] [9]
    (by norm_num) (by norm_num) (by norm_num) rfl

/-- C9: decoding the 8-bit discriminant byte of a tagged union that matches no
variant (`FromPrimitive::from_u8` returns `None`) fails with
`UnknownEnumType` whose `type_id` equals the byte that was read, and a
matching discriminant decodes that variant, never this error. -/
theorem c9_unknown_enum_type {α : Type} (fromU8 : Nat → Option α) (b : Nat) (rest : List Nat) :
    (fromU8 b = none → read_enum fromU8 (b :: rest) = .error (.unknownEnumType b)) ∧
      (∀ t : α, fromU8 b = some t → read_enum fromU8 (b :: rest) = .ok (t, rest)) := by
  constructor
  · intro h
    simp only [read_enum, read_u8]
    rw [h]
  · intro t h
    simp only [read_enum, read_u8]
    rw [h]

/-- C9, witness: against a one-variant union (discriminant 1), byte 7 fails
with `UnknownEnumType {type_id = 7}` and byte 1 decodes the variant. -/
theorem c9_unknown_enum_type_witness :
    read_enum (fun n => if n = 1 then some true else none) [7]
        = .error (.unknownEnumType 7) ∧
      read_enum (fun n => if n = 1 then some true else none) [1, 5] = .ok (true, [5]) :=
  ⟨(c9_unknown_enum_type (fun n => if n = 1 then some true else none) 7 []).1 rfl,
    (c9_unknown_enum_type (fun n => if n = 1 then some true else none) 1 [5]).2 true rfl⟩

/-- C10: the claim says the default string codec bounds both directions at
32768.  The encoder does (a 32769-byte string fails with
`StringTooLong{32769, 32768}`), and a declared prefix of 32769 fails on
decode as claimed; but the decoder truncates the declared length to
`u16` before the check, so the prefix `[0x80, 0x80, 0x04]` declaring
65536 (> 32768, truncates to 0) slips past the bound and the decoder tries
to read 65536 bytes (an I/O error here) instead of failing with
`StringTooLong{65536, 32768}`. -/
theorem c10_default_string_codec_bound :
    read_var_i32 [128, 128, 4] = .ok (65536, []) ∧
      string_decode_default (fun _ => true) [128, 128, 4] = .error .ioError ∧
      string_decode_default (fun _ => true) [129, 128, 2]
        = .error (.stringTooLong 32769 32768) ∧
      string_encode_default 5 (List.replicate 32769 65)
        = some (.error (.stringTooLong 32769 32768)) := by
  refine ⟨rfl, rfl, rfl, ?_⟩
  have h := string_encode_default_too_long 5 (List.replicate 32769 65)
    (by rw [List.length_replicate]; omega)
  rw [List.length_replicate] at h
  exact h

end MCProto

